import Mathlib

/-
Verification of the reconciliation engine of the mom-storage-catalog
repository (src/app.js).  The engine merges a base snapshot, an ordered
list of delta patches and a locally persisted edit overlay into one item
collection.  Items are JSON objects; we embed them as association lists
of string keys to JSON-like values, and embed each reconciliation
operation of CatalogApp (mergeDelta, applyLocalEdits, addLocalEdit,
loadLocalEdits, loadCatalogData) as a pure Lean function over that
representation.  Browser concerns (fetch, localStorage, the DOM) are
abstracted into explicit parameters: a fetch that may fail is an Option
result, the stored overlay blob is an Option String, and the inline
editing save handler is embedded with its input strings as arguments.
-/

namespace Catalog

/-- JSON-like values, the universe of field contents of catalog items. -/
inductive Val where
  | null : Val
  | bool : Bool → Val
  | num : Int → Val
  | str : String → Val
  | arr : List Val → Val
  | obj : List (String × Val) → Val
deriving Repr

mutual

/-- Boolean equality on JSON values (deriving DecidableEq does not
support this nested inductive, so the instance is built by hand). -/
def Val.beq : Val → Val → Bool
  | .null, .null => true
  | .bool a, .bool b => a == b
  | .num a, .num b => a == b
  | .str a, .str b => a == b
  | .arr as, .arr bs => Val.beqList as bs
  | .obj os, .obj ps => Val.beqObj os ps
  | _, _ => false

/-- Boolean equality on lists of JSON values. -/
def Val.beqList : List Val → List Val → Bool
  | [], [] => true
  | a :: as, b :: bs => Val.beq a b && Val.beqList as bs
  | _, _ => false

/-- Boolean equality on key-value binding lists. -/
def Val.beqObj : List (String × Val) → List (String × Val) → Bool
  | [], [] => true
  | (k, a) :: os, (l, b) :: ps => k == l && Val.beq a b && Val.beqObj os ps
  | _, _ => false

end

/-- Val.beq is reflexive (proved by induction on a size bound, which
sidesteps the weak auto-generated induction principle of the nested
inductive). -/
theorem Val.beq_refl_aux (n : Nat) :
    (∀ a : Val, sizeOf a ≤ n → Val.beq a a = true) ∧
    (∀ as : List Val, sizeOf as ≤ n → Val.beqList as as = true) ∧
    (∀ os : List (String × Val), sizeOf os ≤ n → Val.beqObj os os = true) := by
  induction n with
  | zero =>
    refine ⟨?_, ?_, ?_⟩
    · intro a ha; exact absurd ha (by cases a <;> simp)
    · intro as ha; exact absurd ha (by cases as <;> simp)
    · intro os ha; exact absurd ha (by cases os <;> simp)
  | succ n ih =>
    obtain ⟨ihV, ihL, ihO⟩ := ih
    refine ⟨?_, ?_, ?_⟩
    · intro a ha
      cases a <;> simp_all [Val.beq]
      case arr as => exact ihL as (by omega)
      case obj os => exact ihO os (by omega)
    · intro as ha
      cases as with
      | nil => simp [Val.beqList]
      | cons a t =>
        simp only [List.cons.sizeOf_spec] at ha
        simp [Val.beqList, ihV a (by omega), ihL t (by omega)]
    · intro os ha
      cases os with
      | nil => simp [Val.beqObj]
      | cons p t =>
        obtain ⟨k, v⟩ := p
        simp only [List.cons.sizeOf_spec, Prod.mk.sizeOf_spec] at ha
        simp [Val.beqObj, ihV v (by omega), ihO t (by omega)]

/-- Val.beq is sound for propositional equality. -/
theorem Val.beq_sound_aux (n : Nat) :
    (∀ a b : Val, sizeOf a ≤ n → Val.beq a b = true → a = b) ∧
    (∀ as bs : List Val, sizeOf as ≤ n → Val.beqList as bs = true → as = bs) ∧
    (∀ os ps : List (String × Val), sizeOf os ≤ n → Val.beqObj os ps = true → os = ps) := by
  induction n with
  | zero =>
    refine ⟨?_, ?_, ?_⟩
    · intro a b ha; exact absurd ha (by cases a <;> simp)
    · intro as bs ha; exact absurd ha (by cases as <;> simp)
    · intro os ps ha; exact absurd ha (by cases os <;> simp)
  | succ n ih =>
    obtain ⟨ihV, ihL, ihO⟩ := ih
    refine ⟨?_, ?_, ?_⟩
    · intro a b ha hb
      cases a <;> cases b <;> simp_all [Val.beq]
      case arr.arr as bs => exact ihL as bs (by omega) hb
      case obj.obj os ps => exact ihO os ps (by omega) hb
    · intro as bs ha hb
      cases as with
      | nil => cases bs with
        | nil => rfl
        | cons b t => simp [Val.beqList] at hb
      | cons a t =>
        cases bs with
        | nil => simp [Val.beqList] at hb
        | cons b u =>
          simp only [Val.beqList, Bool.and_eq_true] at hb
          simp only [List.cons.sizeOf_spec] at ha
          rw [ihV a b (by omega) hb.1, ihL t u (by omega) hb.2]
    · intro os ps ha hb
      cases os with
      | nil => cases ps with
        | nil => rfl
        | cons q u => simp [Val.beqObj] at hb
      | cons p t =>
        cases ps with
        | nil => simp [Val.beqObj] at hb
        | cons q u =>
          obtain ⟨k, v⟩ := p
          obtain ⟨l, w⟩ := q
          simp only [Val.beqObj, Bool.and_eq_true, beq_iff_eq] at hb
          simp only [List.cons.sizeOf_spec, Prod.mk.sizeOf_spec] at ha
          rw [hb.1.1, ihV v w (by omega) hb.1.2, ihO t u (by omega) hb.2]

/-- Val.beq decides equality of JSON values. -/
theorem Val.beq_iff_eq_val : ∀ a b : Val, Val.beq a b = true ↔ a = b := by
  intro a b
  constructor
  · exact fun h => (Val.beq_sound_aux (sizeOf a)).1 a b le_rfl h
  · intro h
    subst h
    exact (Val.beq_refl_aux (sizeOf a)).1 a le_rfl

instance : DecidableEq Val := fun a b =>
  decidable_of_iff (Val.beq a b = true) (Val.beq_iff_eq_val a b)

instance : BEq Val := ⟨Val.beq⟩

instance : LawfulBEq Val where
  eq_of_beq h := (Val.beq_iff_eq_val _ _).1 h
  rfl := (Val.beq_iff_eq_val _ _).2 rfl

/-- A JavaScript object: an insertion-ordered list of key-value pairs.
In JavaScript an object never holds the same key twice; lists with
duplicate keys are unreachable from JSON data but the operations below
are still total on them (they act on the first occurrence, exactly as
property access does). -/
abbrev Obj := List (String × Val)

/-- An item of the catalog is a JSON object: base records, delta added
records and all field updates go through generic object operations
(property reads, property writes, Object.assign) in the source. -/
abbrev Item := Obj

/-- Property read o[k]: the value of key k, none when absent. -/
def getField (o : Obj) (k : String) : Option Val :=
  (o.find? (fun p => p.1 == k)).map (fun p => p.2)

/-- Property write o[k] = v: update the (first) binding of k in place
when present, otherwise append a new binding at the end, mirroring
JavaScript insertion order semantics. -/
def setField : Obj → String → Val → Obj
  | [], k, v => [(k, v)]
  | p :: o, k, v => if p.1 == k then (k, v) :: o else p :: setField o k v

/-- Object.assign(target, source): copy every binding of s onto o, in
binding order of s. -/
def objAssign (o : Obj) (s : Obj) : Obj :=
  s.foldl (fun acc p => setField acc p.1 p.2) o

/-- The value the last binding of k in s would leave behind: the
effective value contributed by source object s for key k under
Object.assign. -/
def lastVal : Obj → String → Option Val
  | [], _ => none
  | (k', v) :: t, k =>
    match lastVal t k with
    | some w => some w
    | none => if k' == k then some v else none

/-- Whether object o has a binding for key k. -/
def hasKey (o : Obj) (k : String) : Bool :=
  o.any (fun p => p.1 == k)

/-- The key list of an object, in insertion order. -/
def keys (o : Obj) : List String :=
  o.map Prod.fst

/-- A well-formed JavaScript object: no key is bound twice.  Every
object produced by JSON.parse satisfies this, and all object operations
of the engine preserve it. -/
def WFObj (o : Obj) : Prop :=
  (keys o).Nodup

instance (o : Obj) : Decidable (WFObj o) :=
  inferInstanceAs (Decidable ((keys o).Nodup))

/-- Modify the first element of a list satisfying p, leave the list
unchanged when none does.  This is the JavaScript idiom
items.findIndex(pred) followed by an in-place mutation of
items[itemIndex] guarded by itemIndex !== -1, used by mergeDelta for
updates and by applyLocalEdits. -/
def updateFirst (p : α → Bool) (f : α → α) : List α → List α
  | [] => []
  | a :: as => if p a then f a :: as else a :: updateFirst p f as

/-- Remove the first element of a list satisfying p, leave the list
unchanged when none does.  This is items.findIndex(pred) followed by
items.splice(itemIndex, 1) guarded by itemIndex !== -1, used by
mergeDelta for removals. -/
def removeFirst (p : α → Bool) : List α → List α
  | [] => []
  | a :: as => if p a then as else a :: removeFirst p as

/-- The id property of an item, as compared by item.id === update.id in
the source.  A missing id reads as undefined, which is never strictly
equal to an id string; Val.null plays that role here. -/
def idOf (it : Item) : Val :=
  (getField it "id").getD Val.null

/-- The ids of a collection, in collection order. -/
def idsOf (items : List Item) : List Val :=
  items.map idOf

/-- The box_history array of an item as a Lean list.  The source runs
item.box_history = item.box_history || [] before pushing, so a missing
or null box_history reads as the empty array; a non-array truthy value
would make the subsequent push throw in JavaScript and does not occur in
schema-conforming data. -/
def histOf (it : Item) : List Val :=
  match getField it "box_history" with
  | some (Val.arr l) => l
  | _ => []

/-- One entry of a delta updated list: {id, set, box_history_append?}. -/
structure UpdateEntry where
  id : String
  set : Obj
  box_history_append : Option (List Val)
deriving DecidableEq, Repr

/-- A delta patch document {added?, updated?, removed?}; a none field is
an absent (or null) property, skipped by the truthiness guards in
mergeDelta. -/
structure Delta where
  added : Option (List Item)
  updated : Option (List UpdateEntry)
  removed : Option (List String)
deriving DecidableEq, Repr

/-- The effect of one updated entry on its target item, from mergeDelta:
Object.assign(item, update.set || {}) first, then, when
update.box_history_append is present, append its entries to the
(possibly just assigned) box_history array. -/
def applyUpdateItem (u : UpdateEntry) (it : Item) : Item :=
  let it1 := objAssign it u.set
  match u.box_history_append with
  | some hs => setField it1 "box_history" (Val.arr (histOf it1 ++ hs))
  | none => it1

/-- Processing of one updated entry against the collection: find the
first item whose id strictly equals update.id and update it in place;
when findIndex yields -1 the entry is a silent no-op. -/
def applyUpdate (items : List Item) (u : UpdateEntry) : List Item :=
  updateFirst (fun it => idOf it == Val.str u.id) (applyUpdateItem u) items

/-- Processing of one removed id: splice out the first item whose id
strictly equals it; when findIndex yields -1 the id is a silent no-op. -/
def removeId (items : List Item) (rid : String) : List Item :=
  removeFirst (fun it => idOf it == Val.str rid) items

/-- CatalogApp.mergeDelta: push all added records onto the collection
unconditionally, then process updated entries in order, then process
removed ids in order. -/
def mergeDelta (items : List Item) (d : Delta) : List Item :=
  let i1 := match d.added with
    | some a => items ++ a
    | none => items
  let i2 := match d.updated with
    | some us => us.foldl applyUpdate i1
    | none => i1
  match d.removed with
  | some rs => rs.foldl removeId i2
  | none => i2

/-- One entry of the local edit overlay: {id, set}. -/
structure EditEntry where
  id : String
  set : Obj
deriving DecidableEq, Repr

/-- The local edit overlay {edited, timestamp?} persisted in
localStorage under the catalog_edits key. -/
structure Overlay where
  edited : List EditEntry
  timestamp : Option String
deriving DecidableEq, Repr

/-- The empty overlay { edited: [] } returned by loadLocalEdits when
nothing usable is stored. -/
def emptyOverlay : Overlay :=
  { edited := [], timestamp := none }

/-- The effect of one overlay entry, from CatalogApp.applyLocalEdits:
find the item whose id strictly equals edit.id; when found,
Object.assign(item, edit.set) and set its _edited marker to true;
when absent the entry is silently ignored. -/
def applyEdit (items : List Item) (e : EditEntry) : List Item :=
  updateFirst (fun it => idOf it == Val.str e.id)
    (fun it => setField (objAssign it e.set) "_edited" (Val.bool true)) items

/-- CatalogApp.applyLocalEdits: apply every overlay entry in order. -/
def applyLocalEdits (items : List Item) (ov : Overlay) : List Item :=
  ov.edited.foldl applyEdit items

/-- CatalogApp.loadLocalEdits: read the catalog_edits blob; a missing
blob (getItem returned null, modelled as none, which also covers a
throwing storage read caught by the surrounding try) or an empty string
is falsy and yields the default empty overlay; otherwise the blob is
parsed, and a parse failure (JSON.parse throw, modelled as parse
returning none) is caught and yields the default empty overlay. -/
def loadLocalEdits (stored : Option String) (parse : String → Option Overlay) : Overlay :=
  match stored with
  | none => emptyOverlay
  | some s =>
    if s = "" then emptyOverlay
    else
      match parse s with
      | some ov => ov
      | none => emptyOverlay

/-- CatalogApp.addLocalEdit on the overlay state: find the first edited
entry for itemId or push a fresh {id, set: {}} entry, set
entry.set[field] = value, and stamp the overlay with the current time. -/
def recordEdit (ov : Overlay) (itemId field : String) (v : Val) (now : String) : Overlay :=
  let edited :=
    if ov.edited.any (fun e => e.id == itemId) then
      updateFirst (fun e => e.id == itemId)
        (fun e => { e with set := setField e.set field v }) ov.edited
    else
      ov.edited ++ [{ id := itemId, set := [(field, v)] }]
  { edited := edited, timestamp := some now }

/-- CatalogApp.addLocalEdit in full: update the overlay and mirror the
edit onto the in-memory item (item[field] = value; item._edited = true)
when the item exists.  Persistence of the overlay is an external
collaborator and not part of the returned state. -/
def addLocalEdit (ov : Overlay) (items : List Item) (itemId field value now : String) :
    Overlay × List Item :=
  (recordEdit ov itemId field (Val.str value) now,
   updateFirst (fun it => idOf it == Val.str itemId)
     (fun it => setField (setField it field (Val.str value)) "_edited" (Val.bool true)) items)

/-- String.prototype.trim: strip leading and trailing whitespace.
Embedded directly over the character list so that it evaluates by
kernel reduction (String.trim of core Lean does not). -/
def jsTrim (s : String) : String :=
  ⟨((s.data.dropWhile Char.isWhitespace).reverse.dropWhile Char.isWhitespace).reverse⟩

/-- The saveEdit handler installed by CatalogApp.setupInlineEditing:
trim the input; only when the trimmed value is truthy (non-empty) and
differs from the currently displayed value is addLocalEdit invoked;
otherwise neither the overlay nor the item changes. -/
def saveEditHandler (ov : Overlay) (items : List Item)
    (itemId field input currentValue now : String) : Overlay × List Item :=
  let newValue := jsTrim input
  if newValue ≠ "" ∧ newValue ≠ currentValue then
    addLocalEdit ov items itemId field newValue now
  else (ov, items)

/-- The base snapshot document {catalog_version, items}; fields are
optional because the source defends each read with a || default. -/
structure BaseData where
  items : Option (List Item)
  catalog_version : Option String
deriving DecidableEq, Repr

/-- The updates index document {deltas, last_updated}. -/
structure Manifest where
  deltas : Option (List String)
  last_updated : Option String
deriving DecidableEq, Repr

/-- The data-reconciliation core of CatalogApp.loadCatalogData. A failed
base fetch or parse escapes to the outer catch and surfaces the terminal
user-facing error with no collection produced. A missing or unparseable
updates index falls back to base data only, with last_updated taken from
the base catalog_version. Each delta file is fetched and merged inside
its own try: a delta that fails to fetch or parse is skipped and the
loop continues with the next manifest entry. Finally the local overlay
is applied on top. Fetch-and-parse of each resource is modelled as an
Option-valued lookup (none = the corresponding fetch or JSON.parse
threw). -/
def reconcile (fetchBase : Option BaseData) (fetchManifest : Option Manifest)
    (fetchDelta : String → Option Delta) (ov : Overlay) :
    Except String (List Item × String) :=
  match fetchBase with
  | none => Except.error "Failed to load catalog data. Please check that data files exist."
  | some base =>
    let items0 := base.items.getD []
    let (items1, lastUpd) :=
      match fetchManifest with
      | some idx =>
        ((idx.deltas.getD []).foldl
          (fun acc f =>
            match fetchDelta f with
            | some d => mergeDelta acc d
            | none => acc) items0,
         idx.last_updated.getD "N/A")
      | none => (items0, (base.catalog_version.getD "N/A"))
    Except.ok (applyLocalEdits items1 ov, lastUpd)

/-- An open box-history entry: an object whose to field is null, meaning
the current location. -/
def isOpenEntry (v : Val) : Bool :=
  match v with
  | Val.obj o => getField o "to" == some Val.null
  | _ => false

/-! ### Object-level lemmas -/

theorem getField_cons (a : String) (b : Val) (o : Obj) (k : String) :
    getField ((a, b) :: o) k = if a == k then some b else getField o k := by
  by_cases h : a == k <;> simp [getField, List.find?, h]

theorem getField_setField (o : Obj) (k k₂ : String) (v : Val) :
    getField (setField o k v) k₂ = if k == k₂ then some v else getField o k₂ := by
  induction o with
  | nil => simp [setField, getField_cons, getField]
  | cons p o ih =>
    obtain ⟨a, b⟩ := p
    by_cases h : a = k
    · subst h
      simp only [setField, beq_self_eq_true, if_true]
      rw [getField_cons, getField_cons]
      by_cases hkk : a == k₂ <;> simp_all
    · have hne : (a == k) = false := by simp [h]
      have hg : setField ((a, b) :: o) k v = (a, b) :: setField o k v := by
        simp [setField, hne]
      rw [hg, getField_cons, getField_cons]
      by_cases h₂ : a = k₂
      · subst h₂
        have hk : (k == a) = false := by simp [Ne.symm h]
        simp [hk]
      · have h₂' : (a == k₂) = false := by simp [h₂]
        simp [h₂', ih]

theorem getField_eq_none_iff (o : Obj) (k : String) :
    getField o k = none ↔ hasKey o k = false := by
  induction o with
  | nil => simp [getField, hasKey]
  | cons p o ih =>
    obtain ⟨a, b⟩ := p
    rw [getField_cons]
    by_cases h : a = k
    · subst h
      simp [hasKey, List.any_cons]
    · have h' : (a == k) = false := by simp [h]
      simp [h', hasKey, List.any_cons, ih]

theorem hasKey_eq_keys_any (o : Obj) (k : String) :
    hasKey o k = (keys o).any (fun x => x == k) := by
  induction o with
  | nil => rfl
  | cons p t ih =>
    obtain ⟨a, b⟩ := p
    simp [hasKey, keys, List.any_cons] at ih ⊢
    rw [← ih]

theorem hasKey_iff_mem_keys (o : Obj) (k : String) :
    hasKey o k = true ↔ k ∈ keys o := by
  rw [hasKey_eq_keys_any, List.any_eq_true]
  constructor
  · rintro ⟨x, hx, hxk⟩
    rw [eq_of_beq hxk] at hx
    exact hx
  · intro h
    exact ⟨k, h, by simp⟩

theorem keys_setField (o : Obj) (k : String) (v : Val) :
    keys (setField o k v) = if hasKey o k then keys o else keys o ++ [k] := by
  induction o with
  | nil => simp [setField, keys, hasKey]
  | cons p o ih =>
    obtain ⟨a, b⟩ := p
    by_cases h : a = k
    · subst h
      simp [setField, keys, hasKey, List.any_cons]
    · have h' : (a == k) = false := by simp [h]
      have hg : setField ((a, b) :: o) k v = (a, b) :: setField o k v := by
        simp [setField, h']
      have hh : hasKey ((a, b) :: o) k = hasKey o k := by
        simp [hasKey, List.any_cons, h']
      rw [hg, hh]
      by_cases hk : hasKey o k
      · rw [if_pos hk] at ih
        rw [if_pos hk]
        show a :: keys (setField o k v) = a :: keys o
        rw [ih]
      · rw [if_neg hk] at ih
        rw [if_neg hk]
        show a :: keys (setField o k v) = (a :: keys o) ++ [k]
        rw [ih, List.cons_append]

theorem WFObj_setField (o : Obj) (k : String) (v : Val) (h : WFObj o) :
    WFObj (setField o k v) := by
  unfold WFObj
  rw [keys_setField]
  by_cases hk : hasKey o k
  · rwa [if_pos hk]
  · rw [if_neg hk]
    refine List.Nodup.append h (List.nodup_singleton k) ?_
    intro x hx hx'
    simp only [List.mem_singleton] at hx'
    subst hx'
    exact hk ((hasKey_iff_mem_keys o x).2 hx)

theorem WFObj_objAssign (o : Obj) (s : Obj) (h : WFObj o) :
    WFObj (objAssign o s) := by
  induction s generalizing o with
  | nil => simpa [objAssign]
  | cons p t ih =>
    simpa [objAssign, List.foldl_cons] using ih (setField o p.1 p.2) (WFObj_setField o p.1 p.2 h)

theorem objAssign_append (o : Obj) (a b : Obj) :
    objAssign (objAssign o a) b = objAssign o (a ++ b) := by
  simp [objAssign, List.foldl_append]

theorem lastVal_eq_none (s : Obj) (k : String) (h : ∀ p ∈ s, p.1 ≠ k) :
    lastVal s k = none := by
  induction s with
  | nil => rfl
  | cons p t ih =>
    obtain ⟨a, b⟩ := p
    have ha : (a == k) = false := by
      simp [h (a, b) (List.mem_cons_self _ _)]
    simp [lastVal, ih (fun q hq => h q (List.mem_cons_of_mem _ hq)), ha]

theorem getField_objAssign (o : Obj) (s : Obj) (k : String) :
    getField (objAssign o s) k =
      match lastVal s k with
      | some v => some v
      | none => getField o k := by
  induction s generalizing o with
  | nil => simp [objAssign, lastVal]
  | cons p t ih =>
    obtain ⟨a, b⟩ := p
    show getField (objAssign (setField o a b) t) k = _
    rw [ih, getField_setField]
    cases h : lastVal t k with
    | some w => simp [lastVal, h]
    | none =>
      by_cases hk : a = k
      · subst hk
        simp [lastVal, h]
      · have hk' : (a == k) = false := by simp [hk]
        simp [lastVal, h, hk']

/-- Keys of an object after Object.assign, computed from the keys of the
target and of the source alone. -/
def keysAfter (ks : List String) : List String → List String
  | [] => ks
  | k :: t => keysAfter (if ks.any (fun x => x == k) then ks else ks ++ [k]) t

theorem keys_objAssign (o : Obj) (s : Obj) :
    keys (objAssign o s) = keysAfter (keys o) (keys s) := by
  induction s generalizing o with
  | nil => rfl
  | cons p t ih =>
    obtain ⟨a, b⟩ := p
    show keys (objAssign (setField o a b) t) = keysAfter (keys o) (a :: keys t)
    rw [ih]
    show _ = keysAfter (if (keys o).any (fun x => x == a) then keys o else keys o ++ [a]) (keys t)
    rw [keys_setField, hasKey_eq_keys_any]

theorem mem_keysAfter_left (ks kl : List String) (x : String) (h : x ∈ ks) :
    x ∈ keysAfter ks kl := by
  induction kl generalizing ks with
  | nil => simpa [keysAfter]
  | cons k t ih =>
    simp only [keysAfter]
    by_cases hc : ks.any (fun y => y == k)
    · rw [if_pos hc]
      exact ih ks h
    · rw [if_neg hc]
      exact ih (ks ++ [k]) (List.mem_append_left _ h)

theorem mem_keysAfter_right (ks kl : List String) (x : String) (h : x ∈ kl) :
    x ∈ keysAfter ks kl := by
  induction kl generalizing ks with
  | nil => simp at h
  | cons k t ih =>
    simp only [keysAfter]
    rcases List.mem_cons.1 h with h | h
    · subst h
      by_cases hc : ks.any (fun y => y == x)
      · rw [if_pos hc]
        obtain ⟨y, hy, hyx⟩ := List.any_eq_true.1 hc
        exact mem_keysAfter_left _ _ _ (by rwa [← eq_of_beq hyx])
      · rw [if_neg hc]
        exact mem_keysAfter_left _ _ _ (List.mem_append_right _ (List.mem_singleton.2 rfl))
    · by_cases hc : ks.any (fun y => y == k)
      · rw [if_pos hc]
        exact ih _ h
      · rw [if_neg hc]
        exact ih _ h

theorem keysAfter_of_subset (ks kl : List String) (h : ∀ x ∈ kl, x ∈ ks) :
    keysAfter ks kl = ks := by
  induction kl with
  | nil => rfl
  | cons k t ih =>
    have hk : (ks.any (fun y => y == k)) = true :=
      List.any_eq_true.2 ⟨k, h k (List.mem_cons_self _ _), by simp⟩
    simp only [keysAfter, hk, if_true]
    exact ih (fun x hx => h x (List.mem_cons_of_mem _ hx))

theorem keysAfter_idem (ks kl : List String) :
    keysAfter (keysAfter ks kl) kl = keysAfter ks kl :=
  keysAfter_of_subset _ _ (fun x hx => mem_keysAfter_right ks kl x hx)

/-- Extensionality for well-formed objects: equal key sequences and
equal property reads force structural equality. -/
theorem objExt (o₁ : Obj) (hwf : WFObj o₁) :
    ∀ o₂ : Obj, keys o₁ = keys o₂ → (∀ k, getField o₁ k = getField o₂ k) → o₁ = o₂ := by
  induction o₁ with
  | nil =>
    intro o₂ hk _
    cases o₂ with
    | nil => rfl
    | cons q t => simp [keys] at hk
  | cons p t ih =>
    intro o₂ hk hf
    cases o₂ with
    | nil => simp [keys] at hk
    | cons q u =>
      obtain ⟨a, b⟩ := p
      obtain ⟨c, d⟩ := q
      simp only [keys, List.map_cons, List.cons.injEq] at hk
      obtain ⟨hac, htu⟩ := hk
      subst hac
      have hb : b = d := by
        have := hf a
        simp only [getField_cons, beq_self_eq_true, if_true, Option.some.injEq] at this
        exact this
      subst hb
      have hwf2 : a ∉ List.map Prod.fst t ∧ (List.map Prod.fst t).Nodup := by
        have hc : (a :: List.map Prod.fst t).Nodup := hwf
        exact List.nodup_cons.1 hc
      have hwf' : WFObj t := hwf2.2
      have hat : a ∉ keys t := hwf2.1
      refine congrArg _ (ih hwf' u htu ?_)
      intro k
      by_cases hak : a = k
      · subst hak
        have h₁ : getField t a = none :=
          (getField_eq_none_iff t a).2 (by
            rw [Bool.eq_false_iff]
            intro hc
            exact hat ((hasKey_iff_mem_keys t a).1 hc))
        have hau : a ∉ keys u := by
          show a ∉ List.map Prod.fst u
          rw [← htu]
          exact hat
        have h₂ : getField u a = none :=
          (getField_eq_none_iff u a).2 (by
            rw [Bool.eq_false_iff]
            intro hc
            exact hau ((hasKey_iff_mem_keys u a).1 hc))
        rw [h₁, h₂]
      · have hak' : (a == k) = false := by simp [hak]
        have := hf k
        simpa [getField_cons, hak'] using this

/-- Object.assign with the same source twice is the same as once, on a
well-formed target. -/
theorem objAssign_idem (o s : Obj) (hwf : WFObj o) :
    objAssign (objAssign o s) s = objAssign o s := by
  refine objExt _ (WFObj_objAssign _ _ (WFObj_objAssign _ _ hwf)) _ ?_ ?_
  · rw [keys_objAssign, keys_objAssign, keysAfter_idem]
  · intro k
    rw [getField_objAssign, getField_objAssign]
    cases h : lastVal s k <;> simp

/-! ### List-level helpers: first-match update and removal -/

theorem updateFirst_of_forall_false (p : α → Bool) (f : α → α) (l : List α)
    (h : ∀ a ∈ l, p a = false) : updateFirst p f l = l := by
  induction l with
  | nil => rfl
  | cons a t ih =>
    have ha := h a (List.mem_cons_self _ _)
    simp only [updateFirst, ha, Bool.false_eq_true, if_false]
    rw [ih (fun b hb => h b (List.mem_cons_of_mem _ hb))]

theorem removeFirst_of_forall_false (p : α → Bool) (l : List α)
    (h : ∀ a ∈ l, p a = false) : removeFirst p l = l := by
  induction l with
  | nil => rfl
  | cons a t ih =>
    have ha := h a (List.mem_cons_self _ _)
    simp only [removeFirst, ha, Bool.false_eq_true, if_false]
    rw [ih (fun b hb => h b (List.mem_cons_of_mem _ hb))]

theorem updateFirst_append_cons (p : α → Bool) (f : α → α) (pre : List α) (a : α)
    (post : List α) (hpre : ∀ b ∈ pre, p b = false) (ha : p a = true) :
    updateFirst p f (pre ++ a :: post) = pre ++ f a :: post := by
  induction pre with
  | nil => simp [updateFirst, ha]
  | cons b t ih =>
    have hb := hpre b (List.mem_cons_self _ _)
    simp only [List.cons_append, updateFirst, hb, Bool.false_eq_true, if_false]
    exact congrArg (List.cons b) (ih (fun c hc => hpre c (List.mem_cons_of_mem _ hc)))

theorem removeFirst_sublist (p : α → Bool) (l : List α) :
    (removeFirst p l).Sublist l := by
  induction l with
  | nil => simp [removeFirst]
  | cons a t ih =>
    by_cases h : p a
    · simp [removeFirst, h]
    · simp only [removeFirst, h, if_false]
      exact List.Sublist.cons₂ a ih

theorem map_id_of_forall (l : List α) (f : α → α) (h : ∀ a ∈ l, f a = a) :
    l.map f = l := by
  induction l with
  | nil => rfl
  | cons a t ih =>
    rw [List.map_cons, h a (List.mem_cons_self _ _),
      ih (fun b hb => h b (List.mem_cons_of_mem _ hb))]

/-- When at most one element can satisfy p, the first-match update is a
pointwise conditional map. -/
theorem updateFirst_eq_map (p : α → Bool) (f : α → α) (l : List α)
    (h : l.Pairwise (fun a b => p a = true → p b = true → False)) :
    updateFirst p f l = l.map (fun a => if p a then f a else a) := by
  induction l with
  | nil => rfl
  | cons a t ih =>
    obtain ⟨ha, ht⟩ := List.pairwise_cons.1 h
    by_cases hp : p a
    · rw [show updateFirst p f (a :: t) = f a :: t from by simp [updateFirst, hp]]
      rw [List.map_cons, if_pos hp]
      rw [map_id_of_forall t _ (fun b hb => by
        have hb' : p b = false := by
          rw [Bool.eq_false_iff]
          intro hc
          exact ha b hb hp hc
        simp [hb'])]
    · rw [show updateFirst p f (a :: t) = a :: updateFirst p f t from by simp [updateFirst, hp]]
      rw [List.map_cons, if_neg hp, ih ht]

/-- When at most one element can satisfy p, the first-match removal is a
filter. -/
theorem removeFirst_eq_filter (p : α → Bool) (l : List α)
    (h : l.Pairwise (fun a b => p a = true → p b = true → False)) :
    removeFirst p l = l.filter (fun a => !p a) := by
  induction l with
  | nil => rfl
  | cons a t ih =>
    obtain ⟨ha, ht⟩ := List.pairwise_cons.1 h
    by_cases hp : p a
    · rw [show removeFirst p (a :: t) = t from by simp [removeFirst, hp]]
      rw [List.filter_cons]
      simp only [hp, Bool.not_true, Bool.false_eq_true, if_false]
      exact (List.filter_eq_self.2 (fun b hb => by
        have hb' : p b = false := by
          rw [Bool.eq_false_iff]
          intro hc
          exact ha b hb hp hc
        simp [hb'])).symm
    · rw [show removeFirst p (a :: t) = a :: removeFirst p t from by simp [removeFirst, hp]]
      rw [List.filter_cons]
      have hp' : (!p a) = true := by
        have : p a = false := Bool.eq_false_iff.2 hp
        simp [this]
      simp only [hp', if_true]
      rw [ih ht]

/-- Mapping after a first-match update, for maps that the update leaves
untouched (used with the id projection: updates never move items). -/
theorem map_updateFirst (p : α → Bool) (f : α → α) (g : α → β) (l : List α)
    (h : ∀ a, g (f a) = g a) : (updateFirst p f l).map g = l.map g := by
  induction l with
  | nil => rfl
  | cons a t ih =>
    by_cases hp : p a
    · simp [updateFirst, hp, h a]
    · simp [updateFirst, hp, ih]

/-! ### Tracking item ids through the operations -/

theorem idOf_setField (it : Item) (k : String) (v : Val) (h : k ≠ "id") :
    idOf (setField it k v) = idOf it := by
  unfold idOf
  rw [getField_setField]
  have hk : (k == "id") = false := by simp [h]
  simp [hk]

theorem idOf_objAssign (it : Item) (s : Obj) (h : ∀ p ∈ s, p.1 ≠ "id") :
    idOf (objAssign it s) = idOf it := by
  unfold idOf
  rw [getField_objAssign, lastVal_eq_none s _ h]

theorem idOf_applyUpdateItem (u : UpdateEntry) (it : Item) (h : ∀ p ∈ u.set, p.1 ≠ "id") :
    idOf (applyUpdateItem u it) = idOf it := by
  unfold applyUpdateItem
  cases u.box_history_append with
  | none => exact idOf_objAssign it u.set h
  | some hs =>
    rw [idOf_setField _ _ _ (by decide)]
    exact idOf_objAssign it u.set h

theorem WFObj_applyUpdateItem (u : UpdateEntry) (it : Item) (h : WFObj it) :
    WFObj (applyUpdateItem u it) := by
  unfold applyUpdateItem
  cases u.box_history_append with
  | none => exact WFObj_objAssign it u.set h
  | some hs => exact WFObj_setField _ _ _ (WFObj_objAssign it u.set h)

theorem idsOf_applyUpdate (items : List Item) (u : UpdateEntry)
    (h : ∀ p ∈ u.set, p.1 ≠ "id") : idsOf (applyUpdate items u) = idsOf items :=
  map_updateFirst _ _ _ items (fun it => idOf_applyUpdateItem u it h)

theorem idsOf_foldl_applyUpdate (us : List UpdateEntry) (items : List Item)
    (h : ∀ u ∈ us, ∀ p ∈ u.set, p.1 ≠ "id") :
    idsOf (us.foldl applyUpdate items) = idsOf items := by
  induction us generalizing items with
  | nil => rfl
  | cons u t ih =>
    rw [List.foldl_cons, ih _ (fun w hw => h w (List.mem_cons_of_mem _ hw)),
      idsOf_applyUpdate items u (h u (List.mem_cons_self _ _))]

theorem idOf_editItem (e : EditEntry) (it : Item) (h : ∀ p ∈ e.set, p.1 ≠ "id") :
    idOf (setField (objAssign it e.set) "_edited" (Val.bool true)) = idOf it := by
  rw [idOf_setField _ _ _ (by decide)]
  exact idOf_objAssign it e.set h

theorem idsOf_applyEdit (items : List Item) (e : EditEntry)
    (h : ∀ p ∈ e.set, p.1 ≠ "id") : idsOf (applyEdit items e) = idsOf items :=
  map_updateFirst _ _ _ items (fun it => idOf_editItem e it h)

theorem idsOf_foldl_applyEdit (es : List EditEntry) (items : List Item)
    (h : ∀ e ∈ es, ∀ p ∈ e.set, p.1 ≠ "id") :
    idsOf (es.foldl applyEdit items) = idsOf items := by
  induction es generalizing items with
  | nil => rfl
  | cons e t ih =>
    rw [List.foldl_cons, ih _ (fun w hw => h w (List.mem_cons_of_mem _ hw)),
      idsOf_applyEdit items e (h e (List.mem_cons_self _ _))]

theorem idsOf_applyLocalEdits (items : List Item) (ov : Overlay)
    (h : ∀ e ∈ ov.edited, ∀ p ∈ e.set, p.1 ≠ "id") :
    idsOf (applyLocalEdits items ov) = idsOf items :=
  idsOf_foldl_applyEdit ov.edited items h

theorem pairwise_of_nodup_idsOf (items : List Item) (h : (idsOf items).Nodup) (x : Val) :
    items.Pairwise (fun a b => (idOf a == x) = true → (idOf b == x) = true → False) := by
  have hp : items.Pairwise (fun a b => idOf a ≠ idOf b) := List.pairwise_map.1 h
  exact hp.imp (fun hab h1 h2 => hab (by rw [eq_of_beq h1, eq_of_beq h2]))

theorem nodup_idsOf_removeId (items : List Item) (r : String)
    (h : (idsOf items).Nodup) : (idsOf (removeId items r)).Nodup :=
  List.Nodup.sublist ((removeFirst_sublist _ items).map idOf) h

theorem nodup_idsOf_foldl_removeId (rs : List String) (items : List Item)
    (h : (idsOf items).Nodup) : (idsOf (rs.foldl removeId items)).Nodup := by
  induction rs generalizing items with
  | nil => exact h
  | cons r t ih => exact ih _ (nodup_idsOf_removeId items r h)

/-! ### Counting occurrences of an id in a collection -/

/-- The number of items of the collection carrying the given id. -/
def cntId (x : String) (items : List Item) : Nat :=
  (idsOf items).count (Val.str x)

theorem cntId_eq_zero_iff (x : String) (items : List Item) :
    cntId x items = 0 ↔ Val.str x ∉ idsOf items := by
  unfold cntId
  exact List.count_eq_zero

theorem removeId_of_not_mem (items : List Item) (x : String)
    (h : Val.str x ∉ idsOf items) : removeId items x = items := by
  apply removeFirst_of_forall_false
  intro it hit
  rw [Bool.eq_false_iff]
  intro hc
  exact h (by
    rw [← eq_of_beq hc]
    exact List.mem_map_of_mem idOf hit)

theorem cntId_removeId_self (items : List Item) (x : String)
    (h : Val.str x ∈ idsOf items) : cntId x (removeId items x) + 1 = cntId x items := by
  induction items with
  | nil => simp [idsOf] at h
  | cons it t ih =>
    by_cases hp : (idOf it == Val.str x) = true
    · rw [show removeId (it :: t) x = t from by simp [removeId, removeFirst, hp]]
      show cntId x t + 1 = (idOf it :: idsOf t).count (Val.str x)
      rw [eq_of_beq hp, List.count_cons_self]
      rfl
    · rw [show removeId (it :: t) x = it :: removeId t x from by
        simp [removeId, removeFirst, hp]]
      have hm : Val.str x ∈ idsOf t := by
        have h' : Val.str x ∈ idOf it :: idsOf t := h
        rcases List.mem_cons.1 h' with hh | hh
        · exact absurd (by rw [← hh]; simp) hp
        · exact hh
      have hne : Val.str x ≠ idOf it := by
        intro hc
        exact hp (by rw [← hc]; simp)
      show (idOf it :: idsOf (removeId t x)).count (Val.str x) + 1 =
        (idOf it :: idsOf t).count (Val.str x)
      rw [List.count_cons_of_ne hne, List.count_cons_of_ne hne]
      exact ih hm

theorem cntId_removeId_le (items : List Item) (r x : String) :
    cntId x (removeId items r) ≤ cntId x items :=
  List.Sublist.count_le ((removeFirst_sublist _ items).map idOf) _

theorem cntId_foldl_removeId_le (rs : List String) (items : List Item) (x : String) :
    cntId x (rs.foldl removeId items) ≤ cntId x items := by
  induction rs generalizing items with
  | nil => exact le_rfl
  | cons r t ih => exact le_trans (ih _) (cntId_removeId_le items r x)

theorem cntId_foldl_removeId_eq_zero (rs : List String) (items : List Item) (x : String)
    (hle : cntId x items ≤ 1) (hx : x ∈ rs) :
    cntId x (rs.foldl removeId items) = 0 := by
  induction rs generalizing items with
  | nil => simp at hx
  | cons r t ih =>
    rw [List.foldl_cons]
    by_cases hr : r = x
    · subst hr
      have h0 : cntId r (removeId items r) = 0 := by
        by_cases hm : Val.str r ∈ idsOf items
        · have := cntId_removeId_self items r hm
          omega
        · rw [removeId_of_not_mem items r hm]
          exact (cntId_eq_zero_iff r items).2 hm
      have := cntId_foldl_removeId_le t (removeId items r) r
      omega
    · have hx' : x ∈ t := by
        rcases List.mem_cons.1 hx with hh | hh
        · exact absurd hh.symm hr
        · exact hh
      exact ih _ (le_trans (cntId_removeId_le items r x) hle) hx'

theorem mem_idsOf_removeId (items : List Item) (r x : String) (hrx : r ≠ x)
    (hm : Val.str x ∈ idsOf items) : Val.str x ∈ idsOf (removeId items r) := by
  induction items with
  | nil => simp [idsOf] at hm
  | cons it t ih =>
    by_cases hp : (idOf it == Val.str r) = true
    · rw [show removeId (it :: t) r = t from by simp [removeId, removeFirst, hp]]
      rcases List.mem_cons.1 (show Val.str x ∈ idOf it :: idsOf t from hm) with hh | hh
      · rw [eq_of_beq hp] at hh
        exact absurd (Val.str.inj hh).symm hrx
      · exact hh
    · rw [show removeId (it :: t) r = it :: removeId t r from by
        simp [removeId, removeFirst, hp]]
      rcases List.mem_cons.1 (show Val.str x ∈ idOf it :: idsOf t from hm) with hh | hh
      · exact List.mem_cons.2 (Or.inl hh)
      · exact List.mem_cons.2 (Or.inr (ih hh))

theorem mem_idsOf_foldl_removeId (rs : List String) (items : List Item) (x : String)
    (h : x ∉ rs) (hm : Val.str x ∈ idsOf items) :
    Val.str x ∈ idsOf (rs.foldl removeId items) := by
  induction rs generalizing items with
  | nil => exact hm
  | cons r t ih =>
    rw [List.foldl_cons]
    exact ih (removeId items r) (fun hc => h (List.mem_cons_of_mem _ hc))
      (mem_idsOf_removeId items r x (fun hc => h (hc ▸ List.mem_cons_self _ _)) hm)

/-! ### The update phase as a pointwise map, and its idempotence -/

/-- The effect of one updated entry on one item: act only when the item
is the one addressed by the entry. -/
def stepUpdate (u : UpdateEntry) (it : Item) : Item :=
  if idOf it == Val.str u.id then applyUpdateItem u it else it

/-- The accumulated effect of a whole updated list on one item. -/
def applyAll (us : List UpdateEntry) (it : Item) : Item :=
  us.foldl (fun j u => stepUpdate u j) it

theorem foldl_applyUpdate_eq_map (us : List UpdateEntry) (items : List Item)
    (hnd : (idsOf items).Nodup) (hid : ∀ u ∈ us, ∀ p ∈ u.set, p.1 ≠ "id") :
    us.foldl applyUpdate items = items.map (applyAll us) := by
  induction us generalizing items with
  | nil =>
    rw [List.foldl_nil]
    exact (map_id_of_forall items (applyAll []) (fun a _ => rfl)).symm
  | cons u t ih =>
    rw [List.foldl_cons]
    have h1 : applyUpdate items u = items.map (stepUpdate u) :=
      updateFirst_eq_map _ _ items (pairwise_of_nodup_idsOf items hnd (Val.str u.id))
    have hnd' : (idsOf (applyUpdate items u)).Nodup := by
      rw [idsOf_applyUpdate items u (hid u (List.mem_cons_self _ _))]
      exact hnd
    rw [ih (applyUpdate items u) hnd' (fun w hw => hid w (List.mem_cons_of_mem _ hw)), h1,
      List.map_map]
    rfl

/-- The bindings an updated list contributes to the item with id x, in
application order. -/
def matchSets (x : Val) : List UpdateEntry → Obj
  | [] => []
  | u :: t => if x == Val.str u.id then u.set ++ matchSets x t else matchSets x t

theorem matchSets_no_id (x : Val) (us : List UpdateEntry)
    (hid : ∀ u ∈ us, ∀ p ∈ u.set, p.1 ≠ "id") :
    ∀ p ∈ matchSets x us, p.1 ≠ "id" := by
  induction us with
  | nil => intro p hp; simp [matchSets] at hp
  | cons u t ih =>
    intro p hp
    by_cases hm : (x == Val.str u.id) = true
    · rw [show matchSets x (u :: t) = u.set ++ matchSets x t from by simp [matchSets, hm]] at hp
      rcases List.mem_append.1 hp with hh | hh
      · exact hid u (List.mem_cons_self _ _) p hh
      · exact ih (fun w hw => hid w (List.mem_cons_of_mem _ hw)) p hh
    · rw [show matchSets x (u :: t) = matchSets x t from by simp [matchSets, hm]] at hp
      exact ih (fun w hw => hid w (List.mem_cons_of_mem _ hw)) p hp

theorem applyAll_eq_objAssign (us : List UpdateEntry) (it : Item)
    (hid : ∀ u ∈ us, (∀ p ∈ u.set, p.1 ≠ "id") ∧ u.box_history_append = none) :
    applyAll us it = objAssign it (matchSets (idOf it) us) := by
  induction us generalizing it with
  | nil => rfl
  | cons u t ih =>
    obtain ⟨hnoid, hbha⟩ := hid u (List.mem_cons_self _ _)
    have hstep : applyUpdateItem u it = objAssign it u.set := by
      unfold applyUpdateItem
      rw [hbha]
    show applyAll t (stepUpdate u it) = _
    by_cases hm : (idOf it == Val.str u.id) = true
    · rw [show stepUpdate u it = objAssign it u.set from by simp [stepUpdate, hm, hstep]]
      rw [ih _ (fun w hw => hid w (List.mem_cons_of_mem _ hw))]
      rw [idOf_objAssign it u.set hnoid]
      rw [objAssign_append]
      rw [show matchSets (idOf it) (u :: t) = u.set ++ matchSets (idOf it) t from by
        simp [matchSets, hm]]
    · rw [show stepUpdate u it = it from by simp [stepUpdate, hm]]
      rw [ih _ (fun w hw => hid w (List.mem_cons_of_mem _ hw))]
      rw [show matchSets (idOf it) (u :: t) = matchSets (idOf it) t from by
        simp [matchSets, hm]]

theorem applyAll_applyAll (us : List UpdateEntry) (it : Item) (hwf : WFObj it)
    (hid : ∀ u ∈ us, (∀ p ∈ u.set, p.1 ≠ "id") ∧ u.box_history_append = none) :
    applyAll us (applyAll us it) = applyAll us it := by
  have hnoid : ∀ u ∈ us, ∀ p ∈ u.set, p.1 ≠ "id" := fun u hu => (hid u hu).1
  rw [applyAll_eq_objAssign us it hid]
  rw [applyAll_eq_objAssign us _ hid]
  rw [idOf_objAssign it _ (matchSets_no_id (idOf it) us hnoid)]
  exact objAssign_idem it (matchSets (idOf it) us) hwf

/-! ### The removal phase as a filter -/

/-- Whether an item survives a removed list. -/
def notRemoved (rs : List String) (it : Item) : Bool :=
  !(rs.any (fun r => idOf it == Val.str r))

theorem foldl_removeId_eq_filter (rs : List String) (items : List Item)
    (hnd : (idsOf items).Nodup) :
    rs.foldl removeId items = items.filter (notRemoved rs) := by
  induction rs generalizing items with
  | nil =>
    rw [List.foldl_nil]
    exact (List.filter_eq_self.2 (fun a _ => by simp [notRemoved])).symm
  | cons r t ih =>
    rw [List.foldl_cons]
    have h1 : removeId items r = items.filter (fun it => !(idOf it == Val.str r)) :=
      removeFirst_eq_filter _ items (pairwise_of_nodup_idsOf items hnd (Val.str r))
    have hnd' : (idsOf (removeId items r)).Nodup := nodup_idsOf_removeId items r hnd
    rw [ih (removeId items r) hnd', h1, List.filter_filter]
    apply List.filter_congr
    intro it _
    show (notRemoved t it && !(idOf it == Val.str r)) = notRemoved (r :: t) it
    unfold notRemoved
    rw [List.any_cons]
    rw [Bool.not_or, Bool.and_comm]

/-- mergeDelta written in three explicit stages (adds, then updates,
then removals), with absent delta fields as empty lists. -/
theorem mergeDelta_eq_stages (items : List Item) (d : Delta) :
    mergeDelta items d = (d.removed.getD []).foldl removeId
      ((d.updated.getD []).foldl applyUpdate (items ++ (d.added.getD []))) := by
  unfold mergeDelta
  cases d.added <;> cases d.updated <;> cases d.removed <;> simp

/-- Re-applying a delta without additions: when the collection has
pairwise distinct ids and well-formed items, and every updated entry
neither reassigns the id field nor appends box history, a second
application of the same delta is the identity on the merged result. -/
theorem mergeDelta_reapply (items : List Item) (d : Delta)
    (hwf : ∀ it ∈ items, WFObj it) (hnd : (idsOf items).Nodup)
    (hadd : d.added = none ∨ d.added = some [])
    (husL : ∀ u ∈ d.updated.getD [],
      (∀ p ∈ u.set, p.1 ≠ "id") ∧ u.box_history_append = none) :
    mergeDelta (mergeDelta items d) d = mergeDelta items d := by
  have haddL : d.added.getD [] = [] := by
    rcases hadd with h | h <;> simp [h]
  have hnoid : ∀ u ∈ d.updated.getD [], ∀ p ∈ u.set, p.1 ≠ "id" :=
    fun u hu => (husL u hu).1
  rw [mergeDelta_eq_stages items d, haddL, List.append_nil]
  have hM : (d.updated.getD []).foldl applyUpdate items = items.map (applyAll (d.updated.getD [])) :=
    foldl_applyUpdate_eq_map _ items hnd hnoid
  have hndM : (idsOf (items.map (applyAll (d.updated.getD [])))).Nodup := by
    rw [← hM, idsOf_foldl_applyUpdate _ items hnoid]
    exact hnd
  rw [hM, foldl_removeId_eq_filter _ _ hndM]
  have hndX : (idsOf ((items.map (applyAll (d.updated.getD []))).filter
      (notRemoved (d.removed.getD [])))).Nodup :=
    List.Nodup.sublist ((List.filter_sublist _).map idOf) hndM
  rw [mergeDelta_eq_stages _ d, haddL, List.append_nil]
  have hU2 : (d.updated.getD []).foldl applyUpdate
      ((items.map (applyAll (d.updated.getD []))).filter (notRemoved (d.removed.getD []))) =
      (items.map (applyAll (d.updated.getD []))).filter (notRemoved (d.removed.getD [])) := by
    rw [foldl_applyUpdate_eq_map _ _ hndX hnoid]
    apply map_id_of_forall
    intro x hx
    obtain ⟨it₀, hit₀, hxe⟩ := List.mem_map.1 (List.mem_of_mem_filter hx)
    rw [← hxe]
    exact applyAll_applyAll _ it₀ (hwf it₀ hit₀) husL
  rw [hU2, foldl_removeId_eq_filter _ _ hndX]
  apply List.filter_eq_self.2
  intro a ha
  exact List.of_mem_filter ha

/-! ### Reconciliation-level helpers -/

theorem foldl_fetch_eq_filterMap (fetch : String → Option Delta) (files : List String)
    (items : List Item) :
    files.foldl (fun acc f =>
        match fetch f with
        | some d => mergeDelta acc d
        | none => acc) items
      = (files.filterMap fetch).foldl mergeDelta items := by
  induction files generalizing items with
  | nil => rfl
  | cons f t ih =>
    rw [List.foldl_cons]
    cases hf : fetch f with
    | none => rw [List.filterMap_cons_none hf, ih]
    | some d => rw [List.filterMap_cons_some hf, List.foldl_cons, ih]

theorem hasKey_eq_false_iff (s : Obj) (k : String) :
    hasKey s k = false ↔ ∀ p ∈ s, p.1 ≠ k := by
  unfold hasKey
  rw [Bool.eq_false_iff]
  constructor
  · intro h p hp hc
    exact h (List.any_eq_true.2 ⟨p, hp, by simp [hc]⟩)
  · intro h hc
    obtain ⟨p, hp, hb⟩ := List.any_eq_true.1 hc
    exact h p hp (eq_of_beq hb)

theorem cntId_append (x : String) (l₁ l₂ : List Item) :
    cntId x (l₁ ++ l₂) = cntId x l₁ + cntId x l₂ := by
  unfold cntId idsOf
  rw [List.map_append, List.count_append]

theorem cntId_foldl_applyUpdate (us : List UpdateEntry) (items : List Item) (x : String)
    (h : ∀ u ∈ us, ∀ p ∈ u.set, p.1 ≠ "id") :
    cntId x (us.foldl applyUpdate items) = cntId x items := by
  unfold cntId
  rw [idsOf_foldl_applyUpdate us items h]

theorem cntId_mergeDelta_le (items : List Item) (d : Delta) (x : String)
    (hus : ∀ u ∈ d.updated.getD [], ∀ p ∈ u.set, p.1 ≠ "id") :
    cntId x (mergeDelta items d) ≤ cntId x items + cntId x (d.added.getD []) := by
  rw [mergeDelta_eq_stages items d]
  calc cntId x ((d.removed.getD []).foldl removeId
        ((d.updated.getD []).foldl applyUpdate (items ++ d.added.getD [])))
      ≤ cntId x ((d.updated.getD []).foldl applyUpdate (items ++ d.added.getD [])) :=
        cntId_foldl_removeId_le _ _ x
    _ = cntId x (items ++ d.added.getD []) := cntId_foldl_applyUpdate _ _ x hus
    _ = cntId x items + cntId x (d.added.getD []) := cntId_append x _ _

theorem cntId_mergeDelta_zero (items : List Item) (d : Delta) (x : String)
    (hz : cntId x items = 0) (ha : cntId x (d.added.getD []) = 0)
    (hus : ∀ u ∈ d.updated.getD [], ∀ p ∈ u.set, p.1 ≠ "id") :
    cntId x (mergeDelta items d) = 0 := by
  have := cntId_mergeDelta_le items d x hus
  omega

theorem cntId_mergeDelta_removed (items : List Item) (d : Delta) (x : String)
    (hle : cntId x items + cntId x (d.added.getD []) ≤ 1)
    (hx : x ∈ d.removed.getD [])
    (hus : ∀ u ∈ d.updated.getD [], ∀ p ∈ u.set, p.1 ≠ "id") :
    cntId x (mergeDelta items d) = 0 := by
  rw [mergeDelta_eq_stages items d]
  apply cntId_foldl_removeId_eq_zero _ _ x _ hx
  rw [cntId_foldl_applyUpdate _ _ x hus, cntId_append]
  exact hle

theorem cntId_foldl_mergeDelta_le (ds : List Delta) (items : List Item) (x : String)
    (h : ∀ d ∈ ds, ∀ u ∈ d.updated.getD [], ∀ p ∈ u.set, p.1 ≠ "id") :
    cntId x (ds.foldl mergeDelta items) ≤
      cntId x items + (ds.map (fun d => cntId x (d.added.getD []))).sum := by
  induction ds generalizing items with
  | nil => simp
  | cons d t ih =>
    rw [List.foldl_cons, List.map_cons, List.sum_cons]
    calc cntId x (t.foldl mergeDelta (mergeDelta items d))
        ≤ cntId x (mergeDelta items d) + (t.map (fun d => cntId x (d.added.getD []))).sum :=
          ih _ (fun w hw => h w (List.mem_cons_of_mem _ hw))
      _ ≤ (cntId x items + cntId x (d.added.getD [])) +
            (t.map (fun d => cntId x (d.added.getD []))).sum := by
          have := cntId_mergeDelta_le items d x (h d (List.mem_cons_self _ _))
          omega
      _ = cntId x items + (cntId x (d.added.getD []) +
            (t.map (fun d => cntId x (d.added.getD []))).sum) := by omega

theorem cntId_foldl_mergeDelta_zero (ds : List Delta) (items : List Item) (x : String)
    (hz : cntId x items = 0)
    (ha : ∀ d ∈ ds, cntId x (d.added.getD []) = 0)
    (h : ∀ d ∈ ds, ∀ u ∈ d.updated.getD [], ∀ p ∈ u.set, p.1 ≠ "id") :
    cntId x (ds.foldl mergeDelta items) = 0 := by
  induction ds generalizing items with
  | nil => exact hz
  | cons d t ih =>
    rw [List.foldl_cons]
    exact ih _
      (cntId_mergeDelta_zero items d x hz (ha d (List.mem_cons_self _ _))
        (h d (List.mem_cons_self _ _)))
      (fun w hw => ha w (List.mem_cons_of_mem _ hw))
      (fun w hw => h w (List.mem_cons_of_mem _ hw))

/-! ### Field-level facts about one updated entry -/

theorem getField_applyUpdateItem_of_set (u : UpdateEntry) (it : Item) (k : String) (v : Val)
    (hk : k ≠ "box_history") (hv : lastVal u.set k = some v) :
    getField (applyUpdateItem u it) k = some v := by
  unfold applyUpdateItem
  cases u.box_history_append with
  | none =>
    rw [getField_objAssign, hv]
  | some hs =>
    rw [getField_setField]
    have : ("box_history" == k) = false := by simp [Ne.symm hk]
    simp only [this, Bool.false_eq_true, if_false]
    rw [getField_objAssign, hv]

theorem getField_applyUpdateItem_of_not_set (u : UpdateEntry) (it : Item) (k : String)
    (hk : k ≠ "box_history") (hv : lastVal u.set k = none) :
    getField (applyUpdateItem u it) k = getField it k := by
  unfold applyUpdateItem
  cases u.box_history_append with
  | none =>
    rw [getField_objAssign, hv]
  | some hs =>
    rw [getField_setField]
    have : ("box_history" == k) = false := by simp [Ne.symm hk]
    simp only [this, Bool.false_eq_true, if_false]
    rw [getField_objAssign, hv]

theorem histOf_objAssign_of_not_set (it : Item) (s : Obj)
    (h : hasKey s "box_history" = false) : histOf (objAssign it s) = histOf it := by
  unfold histOf
  rw [getField_objAssign, lastVal_eq_none s _ ((hasKey_eq_false_iff s _).1 h)]

theorem getField_applyUpdateItem_box_history (u : UpdateEntry) (it : Item) (hs : List Val)
    (hb : u.box_history_append = some hs) (hset : hasKey u.set "box_history" = false) :
    getField (applyUpdateItem u it) "box_history" = some (Val.arr (histOf it ++ hs)) := by
  unfold applyUpdateItem
  rw [hb]
  rw [getField_setField]
  simp only [beq_self_eq_true, if_true]
  rw [histOf_objAssign_of_not_set it u.set hset]

theorem nodup_idsOf_mergeDelta (items : List Item) (d : Delta)
    (hnd : (idsOf items).Nodup)
    (haddnd : (idsOf (d.added.getD [])).Nodup)
    (hfresh : ∀ v ∈ idsOf (d.added.getD []), v ∉ idsOf items)
    (hus : ∀ u ∈ d.updated.getD [], ∀ p ∈ u.set, p.1 ≠ "id") :
    (idsOf (mergeDelta items d)).Nodup := by
  rw [mergeDelta_eq_stages items d]
  apply nodup_idsOf_foldl_removeId
  rw [idsOf_foldl_applyUpdate _ _ hus]
  rw [show idsOf (items ++ d.added.getD []) = idsOf items ++ idsOf (d.added.getD []) from
    List.map_append _ _ _]
  exact List.Nodup.append hnd haddnd (fun a ha hb => hfresh a hb ha)

theorem mem_idsOf_mergeDelta (items : List Item) (d : Delta) (x : String)
    (hmem : Val.str x ∈ idsOf (d.added.getD []))
    (hnr : x ∉ d.removed.getD [])
    (hus : ∀ u ∈ d.updated.getD [], ∀ p ∈ u.set, p.1 ≠ "id") :
    Val.str x ∈ idsOf (mergeDelta items d) := by
  rw [mergeDelta_eq_stages items d]
  apply mem_idsOf_foldl_removeId _ _ _ hnr
  rw [idsOf_foldl_applyUpdate _ _ hus]
  rw [show idsOf (items ++ d.added.getD []) = idsOf items ++ idsOf (d.added.getD []) from
    List.map_append _ _ _]
  exact List.mem_append_right _ hmem

/-! ### Concrete data used by witnesses and counterexamples -/

/-- A sample catalog item with id x. -/
def exItemX : Item := [("id", Val.str "x"), ("item_name", Val.str "Letter")]

/-- A delta that adds exItemX. -/
def exAddDelta : Delta := { added := some [exItemX], updated := none, removed := none }

/-- A delta with one update and one removal, no additions. -/
def exUpdDelta : Delta :=
  { added := none,
    updated := some [{ id := "x", set := [("notes", Val.str "fragile")],
                       box_history_append := none }],
    removed := some ["y"] }

/-- A delta that adds an item with the fresh id y. -/
def exAddYDelta : Delta :=
  { added := some [[("id", Val.str "y")]], updated := none, removed := none }

/-- An overlay with one entry for id x. -/
def exOverlay : Overlay :=
  { edited := [{ id := "x", set := [("notes", Val.str "checked")] }], timestamp := none }

/-- A delta that adds a fresh record with id z and removes z in the same
delta. -/
def exAddRemZ : Delta :=
  { added := some [[("id", Val.str "z")]], updated := none, removed := some ["z"] }

/-- A delta re-adding id x (already present in the collection) while also
removing x. -/
def exReAddDelta : Delta :=
  { added := some [[("id", Val.str "x"), ("notes", Val.str "new")]],
    updated := none, removed := some ["x"] }

/-- One update entry setting the notes field of item x. -/
def exUpd : UpdateEntry :=
  { id := "x", set := [("notes", Val.str "fragile")], box_history_append := none }

/-- A box-history entry that is open (to is null). -/
def exHist1 : Val :=
  Val.obj [("box_id", Val.str "B1"), ("from", Val.str "2024-01-01"), ("to", Val.null)]

/-- A second open box-history entry. -/
def exHist2 : Val :=
  Val.obj [("box_id", Val.str "S"), ("from", Val.str "2025-02-01"), ("to", Val.null)]

/-- An item with one open history entry. -/
def exItemH : Item := [("id", Val.str "h"), ("box_history", Val.arr [exHist1])]

/-- An update whose set itself assigns box_history while also carrying
box_history_append. -/
def exClobberDelta : Delta :=
  { added := none,
    updated := some [{ id := "h", set := [("box_history", Val.arr [])],
                       box_history_append := some [exHist2] }],
    removed := none }

/-- A pure append entry for the history of item h. -/
def exAppendEntry : UpdateEntry :=
  { id := "h", set := [], box_history_append := some [exHist2] }

/-- A delta that removes id x. -/
def exRemDelta : Delta := { added := none, updated := none, removed := some ["x"] }

/-! ### Claim theorems -/

/-- Claim C1, counterexample: mergeDelta pushes added records
unconditionally (src/app.js line 80), so applying the same delta twice
duplicates its added item instead of skipping the already present id;
the claimed equality apply(apply(C, D), D) = apply(C, D) fails already
for the empty collection and a one-item added list. -/
theorem mergeDelta_readd_duplicates :
    mergeDelta (mergeDelta [] exAddDelta) exAddDelta ≠ mergeDelta [] exAddDelta := by
  decide

/-- Claim C1, amended: re-applying the same delta is the identity on the
merged collection provided the collection has pairwise distinct ids and
well-formed items, the delta carries no added records, no updated entry
reassigns the id field, and no updated entry carries
box_history_append.  For deltas with added records idempotence fails
(see the counterexample): added items are pushed unconditionally with no
duplicate-id skip. -/
theorem delta_reapply_idempotent (items : List Item) (d : Delta)
    (hwf : ∀ it ∈ items, WFObj it) (hnd : (idsOf items).Nodup)
    (hadd : d.added = none ∨ d.added = some [])
    (hupd : ∀ u ∈ d.updated.getD [],
      (∀ p ∈ u.set, p.1 ≠ "id") ∧ u.box_history_append = none) :
    mergeDelta (mergeDelta items d) d = mergeDelta items d :=
  mergeDelta_reapply items d hwf hnd hadd hupd

/-- Witness for the amended claim C1 at a concrete collection and
delta. -/
theorem delta_reapply_idempotent_witness :
    mergeDelta (mergeDelta [exItemX] exUpdDelta) exUpdDelta =
      mergeDelta [exItemX] exUpdDelta :=
  delta_reapply_idempotent [exItemX] exUpdDelta (by decide) (by decide)
    (Or.inl rfl) (by decide)

/-- Claim C2, counterexample: a reconciled collection reachable through
loadCatalogData (base load, one delta application, overlay application)
in which two items share the id x: the delta re-adds an id already
present in the base and mergeDelta pushes it without any duplicate
check. -/
theorem reachable_duplicate_ids :
    reconcile (some { items := some [exItemX], catalog_version := some "1.0.0" })
        (some { deltas := some ["2025-01-01.json"], last_updated := some "2025" })
        (fun _ => some exAddDelta) emptyOverlay =
      Except.ok ([exItemX, exItemX], "2025") ∧
    ¬ (idsOf [exItemX, exItemX]).Nodup :=
  ⟨rfl, by decide⟩

/-- Claim C2, amended: both engine operations preserve pairwise
distinctness of ids under the side conditions the code itself does not
enforce: mergeDelta preserves it when the added records carry pairwise
distinct ids that are fresh for the collection and no updated entry
reassigns the id field; applyLocalEdits preserves it when no overlay
entry assigns the id field.  Without these conditions uniqueness is
violated (see the counterexample). -/
theorem id_uniqueness_preserved :
    (∀ (items : List Item) (d : Delta),
      (idsOf items).Nodup →
      (idsOf (d.added.getD [])).Nodup →
      (∀ v ∈ idsOf (d.added.getD []), v ∉ idsOf items) →
      (∀ u ∈ d.updated.getD [], ∀ p ∈ u.set, p.1 ≠ "id") →
      (idsOf (mergeDelta items d)).Nodup) ∧
    (∀ (items : List Item) (ov : Overlay),
      (idsOf items).Nodup →
      (∀ e ∈ ov.edited, ∀ p ∈ e.set, p.1 ≠ "id") →
      (idsOf (applyLocalEdits items ov)).Nodup) :=
  ⟨fun items d hnd ha hf hu => nodup_idsOf_mergeDelta items d hnd ha hf hu,
   fun items ov hnd he => by
    rw [idsOf_applyLocalEdits items ov he]
    exact hnd⟩

/-- Witness for the amended claim C2 at a concrete collection, delta and
overlay. -/
theorem id_uniqueness_preserved_witness :
    (idsOf (mergeDelta [exItemX] exAddYDelta)).Nodup ∧
    (idsOf (applyLocalEdits [exItemX] exOverlay)).Nodup :=
  ⟨id_uniqueness_preserved.1 [exItemX] exAddYDelta (by decide) (by decide)
      (by decide) (by decide),
   id_uniqueness_preserved.2 [exItemX] exOverlay (by decide) (by decide)⟩

/-- Claim C3, counterexample: when the id in both added and removed is
already present in the collection, the id does not end up absent: the
delta pushes a second record with id x, and the removed pass splices
out only the first matching item, so the re-added record with id x
survives. -/
theorem add_remove_leaves_readded_record :
    mergeDelta [exItemX] exReAddDelta = [[("id", Val.str "x"), ("notes", Val.str "new")]] ∧
    Val.str "x" ∈ idsOf (mergeDelta [exItemX] exReAddDelta) := by
  constructor
  · rfl
  · decide

/-- Claim C3, amended: within one delta, added is processed first, then
updated, then removed.  An id in both added (exactly once) and removed
ends up absent provided it was not already in the collection and no
updated entry reassigns ids; an added id not in removed ends up present;
and an updated entry merges its set field by field onto the target item:
a field bound in set takes the (last) value from set, a field not bound
in set is untouched, and box_history_append appends to (never replaces)
the box_history array when set itself does not assign box_history. -/
theorem delta_internal_ordering :
    (∀ (items : List Item) (d : Delta) (x : String),
      cntId x items = 0 →
      cntId x (d.added.getD []) = 1 →
      (∀ u ∈ d.updated.getD [], ∀ p ∈ u.set, p.1 ≠ "id") →
      x ∈ d.removed.getD [] →
      Val.str x ∉ idsOf (mergeDelta items d)) ∧
    (∀ (items : List Item) (d : Delta) (x : String),
      Val.str x ∈ idsOf (d.added.getD []) →
      (∀ u ∈ d.updated.getD [], ∀ p ∈ u.set, p.1 ≠ "id") →
      x ∉ d.removed.getD [] →
      Val.str x ∈ idsOf (mergeDelta items d)) ∧
    (∀ (u : UpdateEntry) (it : Item) (k : String) (v : Val), k ≠ "box_history" →
      lastVal u.set k = some v → getField (applyUpdateItem u it) k = some v) ∧
    (∀ (u : UpdateEntry) (it : Item) (k : String), k ≠ "box_history" →
      lastVal u.set k = none → getField (applyUpdateItem u it) k = getField it k) ∧
    (∀ (u : UpdateEntry) (it : Item) (hs : List Val),
      u.box_history_append = some hs → hasKey u.set "box_history" = false →
      getField (applyUpdateItem u it) "box_history" = some (Val.arr (histOf it ++ hs))) := by
  refine ⟨?_, ?_, ?_, ?_, ?_⟩
  · intro items d x hz h1 hu hr
    exact (cntId_eq_zero_iff x _).1
      (cntId_mergeDelta_removed items d x (by omega) hr hu)
  · intro items d x hm hu hr
    exact mem_idsOf_mergeDelta items d x hm hr hu
  · intro u it k v hk hv
    exact getField_applyUpdateItem_of_set u it k v hk hv
  · intro u it k hk hv
    exact getField_applyUpdateItem_of_not_set u it k hk hv
  · intro u it hs hb hset
    exact getField_applyUpdateItem_box_history u it hs hb hset

/-- Witness for the amended claim C3 at concrete collections, deltas
and update entries. -/
theorem delta_internal_ordering_witness :
    Val.str "z" ∉ idsOf (mergeDelta [exItemX] exAddRemZ) ∧
    Val.str "y" ∈ idsOf (mergeDelta [exItemX] exAddYDelta) ∧
    getField (applyUpdateItem exUpd exItemX) "notes" = some (Val.str "fragile") :=
  ⟨delta_internal_ordering.1 [exItemX] exAddRemZ "z" (by decide) (by decide)
      (by decide) (by decide),
   delta_internal_ordering.2.1 [exItemX] exAddYDelta "y" (by decide) (by decide)
      (by decide),
   delta_internal_ordering.2.2.1 exUpd exItemX "notes" (Val.str "fragile")
      (by decide) (by decide)⟩

/-- Claim C4, counterexample: an updated entry whose set itself assigns
box_history while also carrying box_history_append does not leave the
existing history entries in place: Object.assign runs first and replaces
the array, then the append pushes onto the replaced value, so the prior
entry exHist1 is lost rather than preserved. -/
theorem box_history_replaced_counterexample :
    (mergeDelta [exItemH] exClobberDelta).map (fun it => getField it "box_history") =
      [some (Val.arr [exHist2])] ∧
    some (Val.arr [exHist2]) ≠ some (Val.arr [exHist1, exHist2]) := by
  constructor
  · rfl
  · decide

/-- Claim C4, amended: for an updated entry carrying box_history_append
whose set does not itself assign box_history, the target item keeps its
existing box_history entries in place and the appended entries follow
them; in particular appending an open entry (to null) to an item that
already has an open entry yields at least two open entries, which the
engine does not auto-close. -/
theorem box_history_append_only (u : UpdateEntry) (it : Item) (hs : List Val)
    (hb : u.box_history_append = some hs) (hset : hasKey u.set "box_history" = false) :
    getField (applyUpdateItem u it) "box_history" = some (Val.arr (histOf it ++ hs)) ∧
    (1 ≤ (histOf it).countP isOpenEntry → 1 ≤ hs.countP isOpenEntry →
      2 ≤ ((histOf it ++ hs).countP isOpenEntry)) := by
  refine ⟨getField_applyUpdateItem_box_history u it hs hb hset, ?_⟩
  intro h1 h2
  rw [List.countP_append]
  omega

/-- Witness for the amended claim C4: appending a second open entry to
item h preserves the first entry and yields two open entries. -/
theorem box_history_append_only_witness :
    getField (applyUpdateItem exAppendEntry exItemH) "box_history" =
      some (Val.arr (histOf exItemH ++ [exHist2])) ∧
    2 ≤ ((histOf exItemH ++ [exHist2]).countP isOpenEntry) :=
  ⟨(box_history_append_only exAppendEntry exItemH [exHist2] rfl (by decide)).1,
   (box_history_append_only exAppendEntry exItemH [exHist2] rfl (by decide)).2
     (by decide) (by decide)⟩

/-- Claim C5, confirmed: applyLocalEdits processes each overlay entry by
locating the item with the entry id; when found, the entry set is merged
shallowly (each bound field takes the value from set, unbound fields are
untouched) and the transient _edited flag is set to true; when the id is
absent from the collection the entry is silently ignored and the
collection is unchanged. -/
theorem overlay_entry_semantics :
    (∀ (items : List Item) (e : EditEntry),
      (∀ it ∈ items, (idOf it == Val.str e.id) = false) →
      applyEdit items e = items) ∧
    (∀ (pre : List Item) (it : Item) (post : List Item) (e : EditEntry),
      (∀ a ∈ pre, (idOf a == Val.str e.id) = false) →
      (idOf it == Val.str e.id) = true →
      applyEdit (pre ++ it :: post) e =
        pre ++ (setField (objAssign it e.set) "_edited" (Val.bool true)) :: post) ∧
    (∀ (it : Item) (e : EditEntry) (k : String) (v : Val), k ≠ "_edited" →
      lastVal e.set k = some v →
      getField (setField (objAssign it e.set) "_edited" (Val.bool true)) k = some v) ∧
    (∀ (it : Item) (e : EditEntry) (k : String), k ≠ "_edited" →
      lastVal e.set k = none →
      getField (setField (objAssign it e.set) "_edited" (Val.bool true)) k = getField it k) ∧
    (∀ (it : Item) (e : EditEntry),
      getField (setField (objAssign it e.set) "_edited" (Val.bool true)) "_edited" =
        some (Val.bool true)) := by
  refine ⟨?_, ?_, ?_, ?_, ?_⟩
  · intro items e h
    exact updateFirst_of_forall_false _ _ items h
  · intro pre it post e hpre hit
    exact updateFirst_append_cons _ _ pre it post hpre hit
  · intro it e k v hk hv
    rw [getField_setField]
    have hk' : ("_edited" == k) = false := by simp [Ne.symm hk]
    simp only [hk', Bool.false_eq_true, if_false]
    rw [getField_objAssign, hv]
  · intro it e k hk hv
    rw [getField_setField]
    have hk' : ("_edited" == k) = false := by simp [Ne.symm hk]
    simp only [hk', Bool.false_eq_true, if_false]
    rw [getField_objAssign, hv]
  · intro it e
    rw [getField_setField]
    simp

/-- Witness for claim C5 at a concrete collection and overlay entry. -/
theorem overlay_entry_semantics_witness :
    applyEdit [exItemX] { id := "q", set := [("notes", Val.str "ignored")] } = [exItemX] ∧
    applyEdit [exItemX] { id := "x", set := [("notes", Val.str "checked")] } =
      [setField (objAssign exItemX [("notes", Val.str "checked")]) "_edited" (Val.bool true)] ∧
    getField (setField (objAssign exItemX [("notes", Val.str "checked")]) "_edited"
      (Val.bool true)) "notes" = some (Val.str "checked") ∧
    getField (setField (objAssign exItemX [("notes", Val.str "checked")]) "_edited"
      (Val.bool true)) "_edited" = some (Val.bool true) :=
  ⟨overlay_entry_semantics.1 [exItemX] _ (by decide),
   overlay_entry_semantics.2.1 [] exItemX [] { id := "x", set := [("notes", Val.str "checked")] }
     (by decide) (by decide),
   overlay_entry_semantics.2.2.1 exItemX { id := "x", set := [("notes", Val.str "checked")] }
     "notes" (Val.str "checked") (by decide) (by decide),
   overlay_entry_semantics.2.2.2.2 exItemX { id := "x", set := [("notes", Val.str "checked")] }⟩

/-- Claim C6, confirmed: the inline-editing save handler trims the input
and, when the trimmed value is empty, skips addLocalEdit entirely, so
an empty value is never recorded: the overlay (and the collection) are
returned unchanged. -/
theorem empty_edit_not_recorded (ov : Overlay) (items : List Item)
    (itemId field input currentValue now : String) (h : jsTrim input = "") :
    saveEditHandler ov items itemId field input currentValue now = (ov, items) := by
  unfold saveEditHandler
  rw [h]
  simp

/-- Witness for claim C6 with a whitespace-only input. -/
theorem empty_edit_not_recorded_witness :
    saveEditHandler exOverlay [exItemX] "x" "notes" "   " "old" "2025-06-01" =
      (exOverlay, [exItemX]) :=
  empty_edit_not_recorded exOverlay [exItemX] "x" "notes" "   " "old" "2025-06-01"
    (by decide)

/-- Claim C7, confirmed: loadLocalEdits is total — it returns the
default empty overlay when nothing is stored or when the stored blob
fails to parse (a parse failure is a caught JSON.parse throw), and the
parsed overlay otherwise.  The hypothesis parse-of-empty-is-none
reflects that the empty string, which the source short-circuits on
through its truthiness check, is not parseable JSON. -/
theorem load_overlay_total (parse : String → Option Overlay) (hp : parse "" = none) :
    (loadLocalEdits none parse = emptyOverlay) ∧
    (∀ s, parse s = none → loadLocalEdits (some s) parse = emptyOverlay) ∧
    (∀ s ov, parse s = some ov → loadLocalEdits (some s) parse = ov) := by
  refine ⟨rfl, ?_, ?_⟩
  · intro s hs
    unfold loadLocalEdits
    by_cases h : s = ""
    · simp [h]
    · simp [h, hs]
  · intro s ov hs
    unfold loadLocalEdits
    by_cases h : s = ""
    · rw [h, hp] at hs
      cases hs
    · simp [h, hs]

/-- A sample parser for the witness of claim C7: accepts only the blob
"good". -/
def exParse : String → Option Overlay :=
  fun s => if s = "good" then some exOverlay else none

/-- Witness for claim C7 on concrete stored blobs. -/
theorem load_overlay_total_witness :
    loadLocalEdits none exParse = emptyOverlay ∧
    loadLocalEdits (some "bad") exParse = emptyOverlay ∧
    loadLocalEdits (some "good") exParse = exOverlay :=
  ⟨(load_overlay_total exParse (by decide)).1,
   (load_overlay_total exParse (by decide)).2.1 "bad" (by decide),
   (load_overlay_total exParse (by decide)).2.2 "good" exOverlay (by decide)⟩

/-- Claim C8, confirmed: a missing or unparseable base snapshot is the
only terminal failure and yields the user-facing error with no partial
collection; with a base present, every delta whose fetch or parse fails
is skipped and the remaining deltas are still applied in manifest order
(the fold over the manifest equals the fold of mergeDelta over exactly
the deltas that fetched successfully, in order), after which the overlay
is applied. -/
theorem delta_failures_skipped :
    (∀ (fm : Option Manifest) (fd : String → Option Delta) (ov : Overlay),
      reconcile none fm fd ov =
        Except.error "Failed to load catalog data. Please check that data files exist.") ∧
    (∀ (b : BaseData) (m : Manifest) (fd : String → Option Delta) (ov : Overlay),
      reconcile (some b) (some m) fd ov =
        Except.ok (applyLocalEdits
          (((m.deltas.getD []).filterMap fd).foldl mergeDelta (b.items.getD [])) ov,
          m.last_updated.getD "N/A")) := by
  constructor
  · intro fm fd ov
    rfl
  · intro b m fd ov
    rw [← foldl_fetch_eq_filterMap fd (m.deltas.getD []) (b.items.getD [])]
    rfl

/-- Claim C9, counterexample: the id x is removed by the second delta
but a later delta adds it back, and the final reconciled collection
contains x again — removal is not final across the whole pass when a
later delta re-adds the id. -/
theorem removal_resurrected_counterexample :
    reconcile (some { items := some [], catalog_version := some "1.0.0" })
        (some { deltas := some ["a.json", "b.json", "c.json"], last_updated := some "L" })
        (fun f => if f = "b.json" then some exRemDelta else some exAddDelta)
        emptyOverlay =
      Except.ok ([exItemX], "L") ∧
    Val.str "x" ∈ idsOf [exItemX] :=
  ⟨rfl, by decide⟩

/-- Claim C9, amended: an id removed by delta k is absent from the final
reconciled collection (after the remaining deltas and the overlay),
provided the id is carried by at most one record up to and including
delta k (base plus added lists), no delta after k adds it back, no
updated entry of any delta reassigns the id field, and no overlay entry
assigns the id field; overlay entries targeting the absent id are then
no-ops.  Without the no-later-re-add condition the claim fails (see the
counterexample). -/
theorem removal_final_in_sequence (items : List Item) (ds : List Delta) (ov : Overlay)
    (x : String) (k : Nat) (dk : Delta)
    (hk : ds[k]? = some dk)
    (hrm : x ∈ dk.removed.getD [])
    (hcnt : cntId x items + ((ds.take (k+1)).map (fun d => cntId x (d.added.getD []))).sum ≤ 1)
    (hafter : ∀ d ∈ ds.drop (k+1), cntId x (d.added.getD []) = 0)
    (hupd : ∀ d ∈ ds, ∀ u ∈ d.updated.getD [], ∀ p ∈ u.set, p.1 ≠ "id")
    (hov : ∀ e ∈ ov.edited, ∀ p ∈ e.set, p.1 ≠ "id") :
    Val.str x ∉ idsOf (applyLocalEdits (ds.foldl mergeDelta items) ov) := by
  rw [idsOf_applyLocalEdits _ _ hov]
  apply (cntId_eq_zero_iff x _).1
  rw [show ds.foldl mergeDelta items =
      (ds.drop (k+1)).foldl mergeDelta ((ds.take (k+1)).foldl mergeDelta items) from by
    rw [← List.foldl_append, List.take_append_drop]]
  have htake : ds.take (k+1) = ds.take k ++ [dk] := by
    rw [List.take_succ, hk]
    rfl
  apply cntId_foldl_mergeDelta_zero
  · rw [htake, List.foldl_append]
    simp only [List.foldl_cons, List.foldl_nil]
    have hdkmem : dk ∈ ds := by
      apply List.take_subset (k+1) ds
      rw [htake]
      exact List.mem_append_right _ (List.mem_singleton.2 rfl)
    apply cntId_mergeDelta_removed _ dk x _ hrm (hupd dk hdkmem)
    have hstate := cntId_foldl_mergeDelta_le (ds.take k) items x
      (fun d hd => hupd d (List.take_subset _ _ hd))
    rw [htake] at hcnt
    simp only [List.map_append, List.sum_append, List.map_cons, List.map_nil,
      List.sum_cons, List.sum_nil] at hcnt
    omega
  · intro d hd
    exact hafter d hd
  · intro d hd
    exact hupd d (List.drop_subset _ _ hd)

/-- Witness for the amended claim C9: one delta adds x, the next removes
it, and an overlay entry targets the removed x; x is absent from the
final collection. -/
theorem removal_final_witness :
    Val.str "x" ∉ idsOf (applyLocalEdits
      (List.foldl mergeDelta [] [exAddDelta, exRemDelta]) exOverlay) :=
  removal_final_in_sequence [] [exAddDelta, exRemDelta] exOverlay "x" 1 exRemDelta
    (by decide) (by decide) (by decide) (by decide) (by decide) (by decide)

/-- Claim C10, confirmed: an updated entry whose id matches no item of
the collection, and a removed id matching no item, are silent no-ops:
mergeDelta returns the collection unchanged, and being a total function
it raises nothing. -/
theorem absent_target_noop (items : List Item) (u : UpdateEntry) (r : String)
    (hu : ∀ it ∈ items, (idOf it == Val.str u.id) = false)
    (hr : ∀ it ∈ items, (idOf it == Val.str r) = false) :
    mergeDelta items { added := none, updated := some [u], removed := none } = items ∧
    mergeDelta items { added := none, updated := none, removed := some [r] } = items := by
  constructor
  · show applyUpdate items u = items
    exact updateFirst_of_forall_false _ _ items hu
  · show removeId items r = items
    exact removeFirst_of_forall_false _ items hr

/-- An update entry addressing an id that is not in the collection. -/
def exMissUpd : UpdateEntry :=
  { id := "zzz", set := [("notes", Val.str "n")], box_history_append := none }

/-- Witness for claim C10 at a concrete collection whose only item does
not carry the targeted id. -/
theorem absent_target_noop_witness :
    mergeDelta [exItemX] { added := none, updated := some [exMissUpd], removed := none } =
      [exItemX] ∧
    mergeDelta [exItemX] { added := none, updated := none, removed := some ["zzz"] } =
      [exItemX] :=
  absent_target_noop [exItemX] exMissUpd "zzz" (by decide) (by decide)

end Catalog
